/-
Verification of the reCBZ2 page-conversion and format-benchmarking
pipeline, as a shallow embedding of the Python sources
(`reCBZ2/models/comic_archive.py`, `reCBZ2/models/page.py`,
`reCBZ2/util.py`) in Lean 4.

Modelling conventions:
- Python lists become `List`; Python tuples become products.
- Python machine/arbitrary-precision integers become `ℕ` / `ℤ`.
- Python `float` arithmetic in `get_size_that_preserves_ratio` is
  modelled with exact rational arithmetic (`ℚ`).
- Fallible code returns `Except`; Python `raise` becomes `.error`.
- Python's stable `sorted` is modelled by a stable insertion sort
  (`isortBy`): two stable sorts w.r.t. the same preorder agree.
- `multiprocessing.Pool.map` / `ThreadPool.map` (external library,
  documented to return results in input order) are modelled by their
  actual mechanism: split the input into chunks of the library's
  default chunk size, map each chunk, and reassemble in chunk order.
-/
import Mathlib

set_option maxHeartbeats 1000000

/-- Decidable equality for `Except`, used to evaluate the embedded
fallible operations on concrete inputs. -/
instance {ε α : Type _} [DecidableEq ε] [DecidableEq α] :
    DecidableEq (Except ε α)
  | .error e, .error f =>
    if h : e = f then .isTrue (by rw [h])
    else .isFalse (by intro hc; injection hc; exact h (by assumption))
  | .ok x, .ok y =>
    if h : x = y then .isTrue (by rw [h])
    else .isFalse (by intro hc; injection hc; exact h (by assumption))
  | .error _, .ok _ => .isFalse (by intro hc; exact Except.noConfusion hc)
  | .ok _, .error _ => .isFalse (by intro hc; exact Except.noConfusion hc)

/-! ### Generic stable insertion sort (model of Python's stable `sorted`) -/

/-- Insert `a` into `l`, placing it before the first element `b` with
`le a b`.  With a reflexive `le` this is the stable placement rule of
Python's `sorted`. -/
def insertLe (le : α → α → Bool) (a : α) : List α → List α
  | [] => [a]
  | b :: l => if le a b then a :: b :: l else b :: insertLe le a l

/-- Stable insertion sort by a boolean "less or equal" test. -/
def isortBy (le : α → α → Bool) : List α → List α
  | [] => []
  | a :: l => insertLe le a (isortBy le l)

/-! ### Chunked pool map (model of `multiprocessing.Pool.map`) -/

/-- Split a list into consecutive chunks of size `c` (the last chunk may
be shorter).  `c = 0` degenerates to a single chunk. -/
def chunksOf (c : ℕ) (l : List α) : List (List α) :=
  match l with
  | [] => []
  | x :: xs =>
    if h : c = 0 then [x :: xs]
    else (x :: xs).take c :: chunksOf c ((x :: xs).drop c)
termination_by l.length
decreasing_by
  simp only [List.length_drop, List.length_cons]
  omega

/-- Default chunk size of `multiprocessing.Pool.map`:
`chunksize, extra = divmod(len(iterable), len(pool)*4); if extra: chunksize += 1`. -/
def poolChunksize (ntasks pcount : ℕ) : ℕ :=
  ntasks / (pcount * 4) + (if ntasks % (pcount * 4) = 0 then 0 else 1)

/-- `Pool.map` model: distribute chunks to workers, reassemble results in
chunk order (the ordering guarantee documented for `Pool.map`). -/
def poolMap (f : α → β) (tasks : List α) (pcount : ℕ) : List β :=
  ((chunksOf (poolChunksize tasks.length pcount) tasks).map (List.map f)).flatten

/-! ### `util.map_workers` -/

/-- Shallow embedding of `util.map_workers(func, tasks, multithread)`.
`cfgPcount` stands for `config.pcount()` (always ≥ 1 in the source). -/
def map_workers (f : α → β) (tasks : List α) (multithread : Bool) (cfgPcount : ℕ) :
    List β :=
  let pcount := min tasks.length cfgPcount
  if pcount = 1 then tasks.map f
  else if multithread then poolMap f tasks pcount
  else poolMap f tasks pcount

/-! ### Character-list comparison (Python `str` comparison on run chunks) -/

/-- Python string `<` (lexicographic by code point) on the underlying
character lists. -/
def charListLt : List Char → List Char → Bool
  | [], [] => false
  | [], _ :: _ => true
  | _ :: _, [] => false
  | a :: as, b :: bs => if a < b then true else if b < a then false else charListLt as bs

/-! ### `util.human_sort` (natural sort) -/

/-- Numeric value of a digit run, `int("...")`. -/
def numVal (ds : List Char) : ℕ :=
  ds.foldl (fun a c => 10 * a + (c.toNat - 48)) 0

/-- Group consecutive characters into maximal runs, tagged with whether
the run is a digit run.  `run` is the current run in reverse, `isdig`
its kind; the scan starts with an empty text run, so the first emitted
chunk is always a (possibly empty) text run — exactly the chunk
structure of Python's `re.split("([0-9]+)", key)`. -/
def runChunks : List Char → List Char → Bool → List (List Char × Bool)
  | [], run, isdig => [(run.reverse, isdig)]
  | c :: cs, run, isdig =>
    if c.isDigit = isdig then runChunks cs (c :: run) isdig
    else (run.reverse, isdig) :: runChunks cs [c] c.isDigit

/-- Turn the tagged runs after the leading text run into `(number, text)`
pairs.  A trailing digit run is paired with the empty text that
`re.split` appends after a final digit run, so the resulting key compares
exactly like Python's alternating `[text, int, text, ...]` key list. -/
def numTextPairs : List (List Char × Bool) → List (ℕ × List Char)
  | [] => []
  | [(d, _)] => [(numVal d, [])]
  | (d, _) :: (t, _) :: rest => (numVal d, t) :: numTextPairs rest

/-- `alphanum_key`: leading text run, then alternating (number, text)
pairs. -/
def alphanumKey (s : String) : List Char × List (ℕ × List Char) :=
  match runChunks s.data [] false with
  | [] => ([], [])
  | (t, _) :: rest => (t, numTextPairs rest)

/-- Lexicographic comparison of the `(number, text)` pair lists: numbers
compare numerically, texts by code point, a strict prefix is smaller —
Python's element-wise list comparison. -/
def numTextPairsLe : List (ℕ × List Char) → List (ℕ × List Char) → Bool
  | [], _ => true
  | _ :: _, [] => false
  | (n, t) :: r, (n', t') :: r' =>
    if n < n' then true
    else if n' < n then false
    else if charListLt t t' then true
    else if charListLt t' t then false
    else numTextPairsLe r r'

/-- Key comparison: leading text run first, then the pair list. -/
def alphanumKeyLe (a b : List Char × List (ℕ × List Char)) : Bool :=
  if charListLt a.1 b.1 then true
  else if charListLt b.1 a.1 then false
  else numTextPairsLe a.2 b.2

/-- Shallow embedding of `util.human_sort`: stable sort by `alphanum_key`. -/
def human_sort (lst : List String) : List String :=
  isortBy (fun a b => alphanumKeyLe (alphanumKey a) (alphanumKey b)) lst

/-! ### `ComicArchive.compute_fmt_sizes` (benchmark ranking) -/

/-- One report entry `(nbytes, fmt.desc, fmt.name)`. -/
abbrev FmtEntry := ℕ × String × String

/-- Python's comparison of the entry tuples `(nbytes, desc, name)`:
element-wise, byte totals numerically, then the strings. -/
def entryLe (a b : FmtEntry) : Bool :=
  if a.1 < b.1 then true
  else if b.1 < a.1 then false
  else if charListLt a.2.1.data b.2.1.data then true
  else if charListLt b.2.1.data a.2.1.data then false
  else if charListLt a.2.2.data b.2.2.data then true
  else if charListLt b.2.2.data a.2.2.data then false
  else true

/-- Shallow embedding of `ComicArchive.compute_fmt_sizes`.
`srcSizes` are the on-disk byte sizes of the extracted sample pages;
`cands` is `config.allowed_page_formats()` as `(name, desc)` pairs;
`candSizes name` gives the byte sizes of the sample pages successfully
converted to the format called `name`.  The code sorts the candidate
entries (`sorted(fmt_fsizes)`) and then inserts the source entry at
position 0 (`sorted_fmts.insert(0, source_fsize)`). -/
def compute_fmt_sizes (srcSizes : List ℕ) (srcDesc srcName : String)
    (cands : List (String × String)) (candSizes : String → List ℕ) : List FmtEntry :=
  let source_fsize : FmtEntry :=
    (srcSizes.sum, "Source (" ++ srcDesc ++ ")", srcName)
  let fmt_fsizes : List FmtEntry :=
    cands.map (fun c => ((candSizes c.1).sum, c.2, c.1))
  source_fsize :: isortBy entryLe fmt_fsizes

/-! ### `ComicArchive.get_size_that_preserves_ratio`
Python `float` arithmetic is modelled by exact rationals. -/

/-- The `x`-branch `round_aspect(number, key=lambda n: abs(aspect - n / y))`:
`max(min(floor(number), ceil(number), key=key), 1)`, where Python's
two-argument `min` keeps the first argument on ties. -/
def round_aspect_x (aspect y number : ℚ) : ℤ :=
  let f := ⌊number⌋
  let c := ⌈number⌉
  let pick := if |aspect - (f : ℚ) / y| ≤ |aspect - (c : ℚ) / y| then f else c
  max pick 1

/-- The `y`-branch `round_aspect(number, key=lambda n: 0 if n == 0 else abs(aspect - x / n))`. -/
def round_aspect_y (aspect x number : ℚ) : ℤ :=
  let f := ⌊number⌋
  let c := ⌈number⌉
  let keyf : ℚ := if (f : ℚ) = 0 then 0 else |aspect - x / (f : ℚ)|
  let keyc : ℚ := if (c : ℚ) = 0 then 0 else |aspect - x / (c : ℚ)|
  let pick := if keyf ≤ keyc then f else c
  max pick 1

/-- Shallow embedding of `ComicArchive.get_size_that_preserves_ratio`. -/
def get_size_that_preserves_ratio (img_size size_of_viewport : ℤ × ℤ) : ℤ × ℤ :=
  let width := img_size.1
  let height := img_size.2
  let x := size_of_viewport.1
  let y := size_of_viewport.2
  let aspect : ℚ := (width : ℚ) / (height : ℚ)
  if (x : ℚ) / (y : ℚ) ≥ aspect then
    (round_aspect_x aspect (y : ℚ) ((y : ℚ) * aspect), y)
  else
    (x, round_aspect_y aspect (x : ℚ) ((x : ℚ) / aspect))

/-! ### `ComicArchive.convert_page_worker` -/

/-- The closed set of page formats (`reCBZ2.formats`). -/
inductive Fmt
  | png
  | jpeg
  | webpLossless
  | webpLossy
deriving DecidableEq, Repr

/-- File extension `fmt.ext[0]`. -/
def fmtExt : Fmt → String
  | .png => ".png"
  | .jpeg => ".jpg"
  | .webpLossless => ".webp"
  | .webpLossy => ".webp"

/-- A decoded image: Pillow color mode plus pixel dimensions. -/
structure Img where
  mode : String
  width : ℤ
  height : ℤ
deriving DecidableEq, Repr

/-- Errors raised while opening a page: `IOError`/`UnidentifiedImageError`
(file unreadable as an image), or `KeyError` (unrecognized format). -/
inductive OpenErr
  | ioErr
  | keyErr
deriving DecidableEq, Repr

/-- A page as handed to the worker: path, stem, and what opening it
yields (detected source format and decoded image, or an error). -/
structure PageIn where
  fp : String
  stem : String
  openResult : Except OpenErr (Fmt × Img)

/-- The converted page returned on success: assigned format, final color
mode and dimensions, and the path it was saved to. -/
structure PageOut where
  fmt : Fmt
  mode : String
  width : ℤ
  height : ℤ
  savedTo : String
deriving DecidableEq, Repr

/-- Worker result: `(False, untouched page)` on a tolerated open failure,
or `(True, converted page)`. -/
inductive WorkerOut
  | failed (fp : String)
  | converted (p : PageOut)
deriving DecidableEq, Repr

/-- The per-batch options snapshot (`self._page_opt` copied per call). -/
structure ConvOptions where
  format : Option Fmt
  quality : ℤ
  size : ℤ × ℤ
  keep_ratio : Bool
  grayscale : Bool
  noup : Bool
  nodown : Bool

/-- The global mutable configuration read by the worker
(`config.ignore_page_err`). -/
structure Config where
  ignore_page_err : Bool

/-- Global mutable state shared across workers: the `LossyFmt.quality`
class attribute assigned at line 116 of `comic_archive.py`. -/
structure Globals where
  lossyQuality : ℤ
deriving DecidableEq, Repr

/-- Directory part of a path (`page.fp.parents[0]`). -/
def dirOf (s : String) : String :=
  String.intercalate "/" ((s.splitOn "/").dropLast)

/-- Shallow embedding of `ComicArchive.convert_page_worker`.  Returns the
global state after the call together with the raised error or the
`(success, page)` pair.  Mirrors the source step by step: open (with the
`config.ignore_page_err` policy), target-format resolution, JPEG RGB
flattening, grayscale, the resize block (landscape swap, optional
aspect-preserving size, downscale/upscale gating), the
`LossyFmt.quality = options["quality"]` global write, and the save path. -/
def convert_page_worker (g : Globals) (cfg : Config) (opts : ConvOptions)
    (source : PageIn) (savedir : Option String) :
    Globals × Except OpenErr WorkerOut :=
  match source.openResult with
  | .error e =>
    if cfg.ignore_page_err then (g, .ok (.failed source.fp)) else (g, .error e)
  | .ok (source_fmt, img0) =>
    let new_fmt := match opts.format with
      | some f => f
      | none => source_fmt
    let img1 :=
      if new_fmt = .jpeg ∧ ¬ img0.mode = "RGB" then { img0 with mode := "RGB" } else img0
    let img2 := if opts.grayscale then { img1 with mode := "L" } else img1
    let img3 :=
      if opts.size.1 ≠ 0 ∧ opts.size.2 ≠ 0 then
        let landscape := img0.width > img0.height
        let new_size := if landscape then (opts.size.2, opts.size.1) else opts.size
        let resize_size :=
          if opts.keep_ratio then
            get_size_that_preserves_ratio (img2.width, img2.height) new_size
          else new_size
        if img2.width > new_size.1 ∧ img2.height > new_size.2 ∧ ¬ opts.nodown then
          { img2 with width := resize_size.1, height := resize_size.2 }
        else if ¬ opts.noup then
          { img2 with width := resize_size.1, height := resize_size.2 }
        else img2
      else img2
    let g1 := { g with lossyQuality := opts.quality }
    let ext := fmtExt new_fmt
    let new_fp := match savedir with
      | some d => d ++ "/" ++ source.stem ++ ext
      | none => dirOf source.fp ++ "/" ++ source.stem ++ ext
    (g1, .ok (.converted
      { fmt := new_fmt, mode := img3.mode, width := img3.width,
        height := img3.height, savedTo := new_fp }))

/-- Final pixel dimensions of the page a worker call saved, if any. -/
def workerSize (r : Globals × Except OpenErr WorkerOut) : Option (ℤ × ℤ) :=
  match r.2 with
  | .ok (.converted p) => some (p.width, p.height)
  | _ => none

/-! ### `ComicArchive.extract` (sampling slice) -/

/-- Errors raised by `extract`: not a zip file, the
`assert len(compressed_files) >= 1`, and the
`samples * 2` size check (the spec's `InsufficientSample`). -/
inductive ExtractErr
  | emptyArchive
  | insufficientSample
deriving DecidableEq, Repr

/-- Stride-2 selection, `l[a : b : 2]` after the window `[a, b)` has been
cut out: every other element starting with the first. -/
def everyOther : List α → List α
  | [] => []
  | [a] => [a]
  | a :: _ :: rest => a :: everyOther rest

/-- Shallow embedding of the entry-selection part of
`ComicArchive.extract(count)`: `compressed_files = source_zip.namelist()`
is `files`; with `count > 0` the code raises when
`count * 2 > len(compressed_files)` and otherwise keeps
`compressed_files[delta - count : delta + count : 2]` with
`delta = int(len(compressed_files) / 2)`. -/
def extract_sample (files : List α) (count : ℕ) : Except ExtractErr (List α) :=
  if files.length < 1 then .error .emptyArchive
  else if 0 < count then
    if count * 2 > files.length then .error .insufficientSample
    else
      let delta := files.length / 2
      .ok (everyOther ((files.drop (delta - count)).take (delta + count - (delta - count))))
  else .ok files

/-! ### `ComicArchive` index / chapter-length state -/

/-- The part of a `ComicArchive`'s state the chapter invariant is about:
the ordered page index and the chapter-length list. -/
structure ArchiveState (P : Type) where
  index : List P
  chapterLengths : List ℕ
deriving DecidableEq, Repr

/-- `fetch_chapters`' slicing loop: `chapters.append(index_copy[:length]);
del index_copy[:length]`. -/
def splitLengths : List ℕ → List P → List (List P)
  | [], _ => []
  | n :: ns, l => l.take n :: splitLengths ns (l.drop n)

/-- `fetch_pages`: extract into the index if it is still empty.
`extracted` stands for the pages `extract()` would return. -/
def fetch_pages (extracted : List P) (st : ArchiveState P) : ArchiveState P :=
  if st.index.isEmpty then { st with index := extracted } else st

/-- State effect of `fetch_chapters`: populate the index if needed, and
default the chapter lengths to `[len(index)]` when none are set. -/
def fetch_chapters (extracted : List P) (st : ArchiveState P) : ArchiveState P :=
  let st1 := fetch_pages extracted st
  if st1.chapterLengths.isEmpty then
    { st1 with chapterLengths := [st1.index.length] }
  else st1

/-- Shallow embedding of `ComicArchive.add_chapter`: ensure chapter 1 is
populated, append the new chapter's length, extend the index.
`newChapter` is the second archive's page list after the optional
start/end slicing. -/
def add_chapter (extracted : List P) (st : ArchiveState P) (newChapter : List P) :
    ArchiveState P :=
  let st1 := fetch_chapters extracted st
  { index := st1.index ++ newChapter,
    chapterLengths := st1.chapterLengths ++ [newChapter.length] }

/-- Shallow embedding of `ComicArchive.convert_pages`: run the worker over
`fetch_pages()`; the new index keeps, in order, the converted page of
every success (`item[1] for item in results if item[0]`), and the
chapter lengths are not touched.  `ok p` is the worker's success flag
for page `p` and `f p` its converted page. -/
def convert_pages (ok : P → Bool) (f : P → P) (extracted : List P)
    (st : ArchiveState P) : ArchiveState P :=
  let st1 := fetch_pages extracted st
  { st1 with index := (st1.index.filter ok).map f }

/-- Python `list.insert` index semantics (negative indices count from the
end, everything is clamped into range). -/
def pyInsertIdx (l : List α) (i : ℤ) (x : α) : List α :=
  let pos : ℕ := if i < 0 then (l.length + i).toNat else min i.toNat l.length
  l.insertIdx pos x

/-- Shallow embedding of `ComicArchive.add_page` (default `index=-1`):
insert into the index, leaving the chapter lengths untouched. -/
def add_page (st : ArchiveState P) (p : P) (i : ℤ) : ArchiveState P :=
  { st with index := pyInsertIdx st.index i p }

/-- Shallow embedding of `ComicArchive.remove_page`: `self._index.pop(index)`. -/
def remove_page (st : ArchiveState P) (i : ℤ) : Option (P × ArchiveState P) :=
  let pos : ℤ := if i < 0 then st.index.length + i else i
  if h : 0 ≤ pos ∧ pos.toNat < st.index.length then
    some (st.index.get ⟨pos.toNat, h.2⟩,
      { st with index := st.index.eraseIdx pos.toNat })
  else none

/-- The claimed archive invariant: whenever both the chapter-length list
and the index are non-empty, the chapter lengths sum to the index length
and the chapters obtained by slicing (`fetch_chapters`) are a contiguous
partition of the index in order. -/
def archiveInv (st : ArchiveState P) : Prop :=
  st.chapterLengths ≠ [] → st.index ≠ [] →
    (st.chapterLengths.sum = st.index.length ∧
      (splitLengths st.chapterLengths st.index).flatten = st.index)

instance (st : ArchiveState P) [DecidableEq P] : Decidable (archiveInv st) := by
  unfold archiveInv
  infer_instance

/-- The invariant in the unguarded form that the preserving operations
actually maintain: either no chapter lengths are set yet, or they sum to
the index length and slice it into a contiguous partition. -/
def archiveInvT (st : ArchiveState P) : Prop :=
  st.chapterLengths = [] ∨
    (st.chapterLengths.sum = st.index.length ∧
      (splitLengths st.chapterLengths st.index).flatten = st.index)

instance (st : ArchiveState P) [DecidableEq P] : Decidable (archiveInvT st) := by
  unfold archiveInvT
  infer_instance

/-! ### `util.write_zip` (chapter path naming) -/

/-- A page as the zip writer sees it: its cache-relative path, used as
the destination inside the container. -/
structure ZPage where
  rel_path : String
deriving DecidableEq, Repr

/-- Zero-padded decimal, Python's format spec in
`f"{chapter_prefix}{i+1:0{lead_zeroes}d}"`. -/
def padNum (width n : ℕ) : String :=
  let s := toString n
  String.mk (List.replicate (width - s.length) '0') ++ s

/-- Destination path of one page: nested under the zero-padded chapter
directory when there is more than one chapter, bare otherwise. -/
def zipDest (nchapters lead_zeroes : ℕ) ( chapter_prefix : String) (i : ℕ)
    (page : ZPage) : String :=
  if nchapters > 1 then
    chapter_prefix ++ padNum lead_zeroes (i + 1) ++ "/" ++ page.rel_path
  else page.rel_path

/-- Per-chapter entry lists of `write_zip`'s nested loop, starting at
chapter index `i0`. -/
def zipEntriesFrom (nchapters lead_zeroes : ℕ) ( chapter_prefix : String) (i0 : ℕ) :
    List (List ZPage) → List (String × ZPage)
  | [] => []
  | ch :: rest =>
    ch.map (fun p => (zipDest nchapters lead_zeroes chapter_prefix i0 p, p)) ++
      zipEntriesFrom nchapters lead_zeroes chapter_prefix (i0 + 1) rest

/-- Shallow embedding of `util.write_zip`: the ordered list of
`(destination, page)` entries written into the container, with
`lead_zeroes = len(str(len(chapters)))`. -/
def write_zip (chapters : List (List ZPage)) ( chapter_prefix : String) :
    List (String × ZPage) :=
  zipEntriesFrom chapters.length (toString chapters.length).length chapter_prefix 0
    chapters

/-! ### `ComicArchive.write_archive` -/

/-- A flat model of the relevant directory: an association list from path
to file content (content identity is an abstract `ℕ`). -/
abbrev FS := List (String × ℕ)

/-- Does a file exist at `p`? (`Path.exists`). -/
def fsLookup (p : String) (fs : FS) : Option ℕ :=
  ((fs.find? (fun e => e.1 = p)).map (fun e => e.2))

/-- `Path.unlink`: remove the file at `p`. -/
def fsErase (p : String) (fs : FS) : FS :=
  fs.filter (fun e => ¬ e.1 = p)

/-- Errors `write_archive` can raise. -/
inductive WriteErr
  | invalidFormat
  | parentMissing
  | notImplemented
deriving DecidableEq, Repr

/-- `ComicArchive.VALID_BOOK_FORMATS`. -/
def VALID_BOOK_FORMATS : List String := ["cbz", "zip", "epub", "mobi"]

/-- Shallow embedding of `ComicArchive.write_archive`.  `stem` is
`self.fp.stem`; `parentOk file_name` stands for the
`parent.exists() and parent.is_dir()` check; `zipContent` is the content
the zip writer produces, and `epubWrite` abstracts the external
`write_epub` collaborator (it receives the file system after the
`new_path.unlink()` step).  Returns the resulting file system together
with the raised error or the returned path. -/
def write_archive (parentOk : String → Bool) (zipContent : ℕ)
    (epubWrite : FS → FS × String) (fs : FS) (stem book_format file_name : String) :
    FS × Except WriteErr String :=
  if ¬ (book_format ∈ VALID_BOOK_FORMATS) then (fs, .error .invalidFormat)
  else if file_name ≠ "" ∧ ¬ parentOk file_name then (fs, .error .parentMissing)
  else
    let new_path :=
      (if file_name ≠ "" then file_name else stem) ++ "." ++ book_format
    let fs1 := if (fsLookup new_path fs).isSome then fsErase new_path fs else fs
    if book_format = "cbz" ∨ book_format = "zip" then
      ((new_path, zipContent) :: fs1, .ok new_path)
    else if book_format = "epub" then
      let r := epubWrite fs1
      (r.1, .ok r.2)
    else (fs1, .error .notImplemented)

/-! ### Lemmas about the stable insertion sort -/

theorem insertLe_perm (le : α → α → Bool) (a : α) (l : List α) :
    (insertLe le a l).Perm (a :: l) := by
  induction l with
  | nil => simp [insertLe]
  | cons b l ih =>
    simp only [insertLe]
    by_cases h : le a b
    · simp [h]
    · simp only [h, if_false, Bool.false_eq_true]
      exact (ih.cons b).trans (List.Perm.swap a b l)

theorem isortBy_perm (le : α → α → Bool) (l : List α) : (isortBy le l).Perm l := by
  induction l with
  | nil => simp [isortBy]
  | cons a l ih =>
    exact ((insertLe_perm le a (isortBy le l)).trans (ih.cons a))

theorem insertLe_pairwise {le : α → α → Bool}
    (hto : ∀ x y, le x y = true ∨ le y x = true)
    (htr : ∀ x y z, le x y = true → le y z = true → le x z = true)
    (a : α) (l : List α) (hl : l.Pairwise (fun x y => le x y = true)) :
    (insertLe le a l).Pairwise (fun x y => le x y = true) := by
  induction l with
  | nil => simp [insertLe]
  | cons b l ih =>
    rcases List.pairwise_cons.1 hl with ⟨hb, hl2⟩
    simp only [insertLe]
    by_cases h : le a b
    · simp only [h, if_true]
      refine List.pairwise_cons.2 ⟨?_, hl⟩
      intro x hx
      rcases List.mem_cons.1 hx with rfl | hx2
      · exact h
      · exact htr a b x h (hb x hx2)
    · simp only [h, if_false, Bool.false_eq_true]
      refine List.pairwise_cons.2 ⟨?_, ih hl2⟩
      intro x hx
      rcases List.mem_cons.1 ((insertLe_perm le a l).mem_iff.1 hx) with rfl | hx2
      · rcases hto x b with hxb | hbx
        · exact absurd hxb h
        · exact hbx
      · exact hb x hx2

theorem isortBy_pairwise {le : α → α → Bool}
    (hto : ∀ x y, le x y = true ∨ le y x = true)
    (htr : ∀ x y z, le x y = true → le y z = true → le x z = true)
    (l : List α) : (isortBy le l).Pairwise (fun x y => le x y = true) := by
  induction l with
  | nil => simp [isortBy]
  | cons a l ih => exact insertLe_pairwise hto htr a (isortBy le l) ih

/-! ### Lemmas about chunked pool maps -/

theorem chunksOf_flatten (c : ℕ) (l : List α) : (chunksOf c l).flatten = l := by
  cases l with
  | nil => simp [chunksOf]
  | cons x xs =>
    by_cases h : c = 0
    · simp [chunksOf, h]
    · have ih := chunksOf_flatten c ((x :: xs).drop c)
      rw [chunksOf, dif_neg h, List.flatten_cons, ih, List.take_append_drop]
termination_by l.length
decreasing_by
  simp only [List.length_drop, List.length_cons]
  omega

theorem chunksOf_map (c : ℕ) (f : α → β) (l : List α) :
    chunksOf c (l.map f) = (chunksOf c l).map (List.map f) := by
  cases l with
  | nil => simp [chunksOf]
  | cons x xs =>
    by_cases h : c = 0
    · simp [chunksOf, h]
    · have ih := chunksOf_map c f ((x :: xs).drop c)
      rw [List.map_cons, chunksOf, dif_neg h]
      conv_rhs => rw [chunksOf, dif_neg h]
      rw [List.map_cons]
      congr 1
      · rw [← List.map_cons, List.map_take]
      · rw [← List.map_cons, ← List.map_drop, ih]
termination_by l.length
decreasing_by
  simp only [List.length_drop, List.length_cons]
  omega

theorem poolMap_eq_map (f : α → β) (tasks : List α) (pcount : ℕ) :
    poolMap f tasks pcount = tasks.map f := by
  unfold poolMap
  rw [← chunksOf_map, chunksOf_flatten]

theorem map_workers_eq_map (f : α → β) (tasks : List α) (mt : Bool) (pc : ℕ) :
    map_workers f tasks mt pc = tasks.map f := by
  unfold map_workers
  by_cases h : min tasks.length pc = 1
  · simp [h]
  · cases mt <;> simp [h, poolMap_eq_map]

/-! ### Lemmas about the sampling slice and chapter slicing -/

theorem everyOther_length (l : List α) : (everyOther l).length = (l.length + 1) / 2 := by
  match l with
  | [] => simp [everyOther]
  | [a] => simp [everyOther]
  | a :: b :: rest =>
    have ih := everyOther_length rest
    simp only [everyOther, List.length_cons, ih]
    omega

theorem splitLengths_flatten (ns : List ℕ) (l : List P) :
    (splitLengths ns l).flatten = l.take ns.sum := by
  induction ns generalizing l with
  | nil => simp [splitLengths]
  | cons n ns ih =>
    simp only [splitLengths, List.flatten_cons, ih, List.sum_cons]
    rw [List.take_add]

theorem splitLengths_flatten_of_sum (ns : List ℕ) (l : List P)
    (h : ns.sum = l.length) : (splitLengths ns l).flatten = l := by
  rw [splitLengths_flatten, h, List.take_length]

/-! ### Order lemmas for the character-list comparison -/

theorem charListLt_asymm : ∀ {a b : List Char},
    charListLt a b = true → charListLt b a = false := by
  intro a
  induction a with
  | nil =>
    intro b h
    cases b with
    | nil => simp [charListLt] at h
    | cons x xs => simp [charListLt]
  | cons x xs ih =>
    intro b h
    cases b with
    | nil => simp [charListLt] at h
    | cons y ys =>
      simp only [charListLt] at h ⊢
      by_cases hxy : x < y
      · have : ¬ y < x := lt_asymm hxy
        simp [hxy, this]
      · by_cases hyx : y < x
        · simp [hxy, hyx] at h
        · simp only [hxy, hyx, if_false] at h ⊢
          exact ih h

theorem charListLt_trans : ∀ {a b c : List Char},
    charListLt a b = true → charListLt b c = true → charListLt a c = true := by
  intro a
  induction a with
  | nil =>
    intro b c hab hbc
    cases c with
    | nil =>
      cases b with
      | nil => simp [charListLt] at hab
      | cons y ys => simp [charListLt] at hbc
    | cons z zs => simp [charListLt]
  | cons x xs ih =>
    intro b c hab hbc
    cases b with
    | nil => simp [charListLt] at hab
    | cons y ys =>
      cases c with
      | nil => simp [charListLt] at hbc
      | cons z zs =>
        simp only [charListLt] at hab hbc ⊢
        by_cases hxy : x < y
        · by_cases hyz : y < z
          · simp [lt_trans hxy hyz]
          · by_cases hzy : z < y
            · simp [hyz, hzy] at hbc
            · have hyz2 : y = z := le_antisymm (not_lt.1 hzy) (not_lt.1 hyz)
              simp [hyz2 ▸ hxy]
        · by_cases hyx : y < x
          · simp [hxy, hyx] at hab
          · have hxy2 : x = y := le_antisymm (not_lt.1 hyx) (not_lt.1 hxy)
            subst hxy2
            simp only [hxy, hyx, if_false] at hab ⊢
            by_cases hxz : x < z
            · simp [hxz]
            · by_cases hzx : z < x
              · simp [hxz, hzx] at hbc
              · simp only [hxz, hzx, if_false, Bool.false_eq_true] at hbc ⊢
                exact ih hab hbc

theorem charListLt_eq_of_not : ∀ {a b : List Char},
    charListLt a b = false → charListLt b a = false → a = b := by
  intro a
  induction a with
  | nil =>
    intro b hab _
    cases b with
    | nil => rfl
    | cons y ys => simp [charListLt] at hab
  | cons x xs ih =>
    intro b hab hba
    cases b with
    | nil => simp [charListLt] at hba
    | cons y ys =>
      simp only [charListLt] at hab hba
      by_cases hxy : x < y
      · simp [hxy] at hab
      · by_cases hyx : y < x
        · simp [hxy, hyx] at hba
        · have hxy2 : x = y := le_antisymm (not_lt.1 hyx) (not_lt.1 hxy)
          simp only [hxy, hyx, if_false, Bool.false_eq_true] at hab hba
          rw [hxy2, ih hab hba]

theorem charListLt_irrefl : ∀ (a : List Char), charListLt a a = false := by
  intro a
  induction a with
  | nil => rfl
  | cons x xs ih => simp [charListLt, ih]

/-! ### Order lemmas for the benchmark entry comparison -/

theorem entryLe_total (a b : FmtEntry) : entryLe a b = true ∨ entryLe b a = true := by
  unfold entryLe
  rcases Nat.lt_trichotomy a.1 b.1 with h | h | h
  · left
    simp [h]
  · have h1 : ¬ a.1 < b.1 := by omega
    have h2 : ¬ b.1 < a.1 := by omega
    have hle : a.1 ≤ b.1 := Nat.le_of_eq h
    have hge : b.1 ≤ a.1 := Nat.le_of_eq h.symm
    by_cases hd : charListLt a.2.1.data b.2.1.data
    · left
      simp [h1, h2, hle, hge, hd]
    · by_cases hd2 : charListLt b.2.1.data a.2.1.data
      · right
        simp [h1, h2, hle, hge, hd2]
      · by_cases hn : charListLt a.2.2.data b.2.2.data
        · left
          simp [h1, h2, hle, hge, hd, hd2, hn]
        · by_cases hn2 : charListLt b.2.2.data a.2.2.data
          · right
            simp [h1, h2, hle, hge, hd, hd2, hn2]
          · left
            simp [h1, h2, hle, hge, hd, hd2, hn, hn2]
  · right
    simp [h]

theorem entryLe_trans (a b c : FmtEntry) (hab : entryLe a b = true)
    (hbc : entryLe b c = true) : entryLe a c = true := by
  unfold entryLe at hab hbc ⊢
  by_cases h1 : a.1 < b.1 <;> by_cases h2 : b.1 < c.1
  · simp [Nat.lt_trans h1 h2]
  · by_cases h3 : c.1 < b.1
    · simp [h2, h3] at hbc
    · have : b.1 = c.1 := by omega
      simp [this ▸ h1]
  · by_cases h4 : b.1 < a.1
    · simp [h1, h4] at hab
    · have : a.1 = b.1 := by omega
      simp [this ▸ h2]
  · by_cases h4 : b.1 < a.1
    · simp [h1, h4] at hab
    · by_cases h3 : c.1 < b.1
      · simp [h2, h3] at hbc
      · have hab1 : a.1 = b.1 := by omega
        have hbc1 : b.1 = c.1 := by omega
        have h5 : ¬ a.1 < c.1 := by omega
        have h6 : ¬ c.1 < a.1 := by omega
        simp only [h1, h4, if_false, Bool.false_eq_true] at hab
        simp only [h2, h3, if_false, Bool.false_eq_true] at hbc
        simp only [h5, h6, if_false, Bool.false_eq_true]
        by_cases d1 : charListLt a.2.1.data b.2.1.data <;>
          by_cases d2 : charListLt b.2.1.data c.2.1.data
        · simp [charListLt_trans d1 d2]
        · by_cases d3 : charListLt c.2.1.data b.2.1.data
          · simp [d2, d3] at hbc
          · have : b.2.1.data = c.2.1.data :=
              charListLt_eq_of_not (by simpa using d2) (by simpa using d3)
            simp [this ▸ d1]
        · by_cases d4 : charListLt b.2.1.data a.2.1.data
          · simp [d1, d4] at hab
          · have : a.2.1.data = b.2.1.data :=
              charListLt_eq_of_not (by simpa using d1) (by simpa using d4)
            simp [this ▸ d2]
        · by_cases d4 : charListLt b.2.1.data a.2.1.data
          · simp [d1, d4] at hab
          · by_cases d3 : charListLt c.2.1.data b.2.1.data
            · simp [d2, d3] at hbc
            · have hd1 : a.2.1.data = b.2.1.data :=
                charListLt_eq_of_not (by simpa using d1) (by simpa using d4)
              have hd2 : b.2.1.data = c.2.1.data :=
                charListLt_eq_of_not (by simpa using d2) (by simpa using d3)
              simp only [d1, d4, if_false, Bool.false_eq_true] at hab
              simp only [d2, d3, if_false, Bool.false_eq_true] at hbc
              rw [hd1, hd2]
              simp only [charListLt_irrefl, if_false, Bool.false_eq_true]
              by_cases n1 : charListLt a.2.2.data b.2.2.data <;>
                by_cases n2 : charListLt b.2.2.data c.2.2.data
              · simp [charListLt_trans n1 n2]
              · by_cases n3 : charListLt c.2.2.data b.2.2.data
                · simp [n2, n3] at hbc
                · have hn : b.2.2.data = c.2.2.data :=
                    charListLt_eq_of_not (by simpa using n2) (by simpa using n3)
                  simp [hn ▸ n1]
              · by_cases n4 : charListLt b.2.2.data a.2.2.data
                · simp [n1, n4] at hab
                · have hn : a.2.2.data = b.2.2.data :=
                    charListLt_eq_of_not (by simpa using n1) (by simpa using n4)
                  rw [hn]
                  simp [n2]
              · by_cases n4 : charListLt b.2.2.data a.2.2.data
                · simp [n1, n4] at hab
                · by_cases n3 : charListLt c.2.2.data b.2.2.data
                  · simp [n2, n3] at hbc
                  · have hn1 : a.2.2.data = b.2.2.data :=
                      charListLt_eq_of_not (by simpa using n1) (by simpa using n4)
                    have hn2 : b.2.2.data = c.2.2.data :=
                      charListLt_eq_of_not (by simpa using n2) (by simpa using n3)
                    rw [hn1, hn2]
                    simp [charListLt_irrefl]

/-! ## Claim theorems -/

/-- C6: for every task function `f` and non-empty input sequence, the
worker pool returns a result sequence of the same length whose `i`-th
element is `f` of the `i`-th input, in the synchronous, thread-parallel
and process-parallel modes alike. -/
theorem map_workers_preserves_order (f : α → β) (tasks : List α)
    (multithread : Bool) (cfgPcount : ℕ) (hne : tasks ≠ []) (hpc : 1 ≤ cfgPcount) :
    (map_workers f tasks multithread cfgPcount).length = tasks.length ∧
    ∀ i : ℕ, (map_workers f tasks multithread cfgPcount)[i]? = tasks[i]?.map f := by
  rw [map_workers_eq_map]
  exact ⟨List.length_map tasks f, fun i => List.getElem?_map f tasks i⟩

/-- Witness for C6 at a concrete three-element batch. -/
theorem map_workers_preserves_order_witness :
    (map_workers (fun n => n + 1) ([10, 20, 30] : List ℕ) false 2).length = 3 ∧
    ∀ i : ℕ, (map_workers (fun n => n + 1) ([10, 20, 30] : List ℕ) false 2)[i]? =
      ([10, 20, 30] : List ℕ)[i]?.map (fun n => n + 1) := by
  have h := map_workers_preserves_order (fun n => n + 1) ([10, 20, 30] : List ℕ)
    false 2 (by simp) (by omega)
  simpa using h

/-- C7: extraction recovers page order by natural sort: digit runs
compare numerically, so the names `p1`, `p2`, `p10` in arbitrary storage
order are recovered as `p1, p2, p10`. -/
theorem human_sort_natural_order (xs : List String)
    (h : xs.Perm ["p1", "p2", "p10"]) :
    human_sort xs = ["p1", "p2", "p10"] := by
  have h3 : xs.length = 3 := by simpa using h.length_eq
  cases xs with
  | nil => simp at h3
  | cons a t =>
    cases t with
    | nil => simp at h3
    | cons b t2 =>
      cases t2 with
      | nil => simp at h3
      | cons c t3 =>
        cases t3 with
        | cons d t4 => simp at h3
        | nil =>
          have ha : a ∈ (["p1", "p2", "p10"] : List String) :=
            h.mem_iff.1 (by simp)
          have hb : b ∈ (["p1", "p2", "p10"] : List String) :=
            h.mem_iff.1 (by simp)
          have hc : c ∈ (["p1", "p2", "p10"] : List String) :=
            h.mem_iff.1 (by simp)
          fin_cases ha <;> fin_cases hb <;> fin_cases hc <;>
            first
              | exact absurd h (by decide)
              | decide

/-- Witness for C7 at one concrete storage order. -/
theorem human_sort_natural_order_witness :
    human_sort ["p10", "p1", "p2"] = ["p1", "p2", "p10"] :=
  human_sort_natural_order ["p10", "p1", "p2"] (by decide)

/-- C3 counterexample: a 4-entry archive with `k = 2` passes the
`n < 2·k` check but the stride-2 midpoint slice yields `k = 2` entries,
not `2·k = 4` as the claim states. -/
theorem extract_sample_counterexample :
    extract_sample (["a", "b", "c", "d"] : List String) 2 = Except.ok ["a", "c"] ∧
    (["a", "c"] : List String).length ≠ 2 * 2 := by
  constructor <;> decide

/-- C3 amended: for `n ≥ 1` entries and `k > 0`, partial extraction
fails with the insufficient-sample error exactly when `n < 2·k`, and
otherwise extracts precisely the stratified midpoint slice
`[n/2 − k : n/2 + k : 2]` — a sample of `k` pages (not `2·k`). -/
theorem extract_sample_spec (files : List α) (k : ℕ)
    (h1 : 1 ≤ files.length) (hk : 0 < k) :
    (extract_sample files k = .error .insufficientSample ↔ files.length < 2 * k) ∧
    (2 * k ≤ files.length →
      extract_sample files k =
        .ok (everyOther ((files.drop (files.length / 2 - k)).take
          (files.length / 2 + k - (files.length / 2 - k)))) ∧
      (everyOther ((files.drop (files.length / 2 - k)).take
          (files.length / 2 + k - (files.length / 2 - k)))).length = k) := by
  have hn : ¬ files.length < 1 := by omega
  have hdelta : k ≤ files.length / 2 → files.length / 2 + k ≤ files.length := by
    intro hkd
    have h2 : files.length / 2 * 2 ≤ files.length := Nat.div_mul_le_self _ 2
    omega
  constructor
  · constructor
    · intro he
      by_contra hlt
      have hgt : ¬ (k * 2 > files.length) := by omega
      simp [extract_sample, hn, hk, hgt] at he
    · intro hlt
      have hgt : k * 2 > files.length := by omega
      simp [extract_sample, hn, hk, hgt]
  · intro hge
    have hgt : ¬ (k * 2 > files.length) := by omega
    have hkd : k ≤ files.length / 2 := (Nat.le_div_iff_mul_le (by omega)).2 (by omega)
    constructor
    · simp [extract_sample, hn, hk, hgt]
    · have htake : files.length / 2 + k - (files.length / 2 - k) = 2 * k := by omega
      rw [htake, everyOther_length]
      have hlen : ((files.drop (files.length / 2 - k)).take (2 * k)).length = 2 * k := by
        have hfit : files.length / 2 + k ≤ files.length := hdelta hkd
        simp only [List.length_take, List.length_drop]
        omega
      rw [hlen]
      omega

/-- Witness for C3 amended at a concrete 6-entry archive with `k = 2`. -/
theorem extract_sample_spec_witness :
    extract_sample (["a", "b", "c", "d", "e", "f"] : List String) 2 =
      Except.ok ["b", "d"] := by
  have h := (extract_sample_spec (["a", "b", "c", "d", "e", "f"] : List String) 2
    (by decide) (by decide)).2 (by decide)
  rw [h.1]
  decide

/-- C4 counterexample: the archive `⟨["a"], [1]⟩` satisfies the chapter
invariant, but `add_page` (default index `-1`) grows the index without
touching the chapter lengths, leaving a non-empty state whose lengths no
longer sum to the index length. -/
theorem add_page_breaks_invariant :
    archiveInv (⟨["a"], [1]⟩ : ArchiveState String) ∧
    ¬ archiveInv (add_page (⟨["a"], [1]⟩ : ArchiveState String) "b" (-1)) := by
  constructor <;> decide

/-- C4 amended: `add_chapter` preserves the invariant (on states where an
empty index implies no chapter lengths are set), and `convert_pages`
preserves it when every page converts successfully; `add_page` and
`remove_page` mutate the index without updating the chapter lengths and
do not preserve it. -/
theorem add_chapter_convert_pages_preserve_invariant (st : ArchiveState P)
    (extracted newChapter : List P) (ok : P → Bool) (f : P → P)
    (hfresh : st.index = [] → st.chapterLengths = [])
    (hinv : archiveInvT st) :
    archiveInvT (add_chapter extracted st newChapter) ∧
    ((∀ p ∈ (fetch_pages extracted st).index, ok p = true) →
      archiveInvT (convert_pages ok f extracted st)) := by
  rcases st with ⟨idx, lens⟩
  constructor
  · rcases hl : lens with _ | ⟨n, ns⟩
    · by_cases hi : idx = []
      · right
        subst hi
        simp [add_chapter, fetch_chapters, fetch_pages]
        exact splitLengths_flatten_of_sum _ _ (by simp)
      · right
        have hie : ¬ idx.isEmpty := by simpa [List.isEmpty_iff] using hi
        simp [add_chapter, fetch_chapters, fetch_pages, hie]
        exact splitLengths_flatten_of_sum _ _ (by simp)
    · have hlne : lens ≠ [] := by simp [hl]
      have hine : idx ≠ [] := fun he => hlne (hfresh he)
      have hie : ¬ idx.isEmpty := by simpa [List.isEmpty_iff] using hine
      have hsum : lens.sum = idx.length := by
        rcases hinv with h | h
        · exact absurd h hlne
        · exact h.1
      right
      rw [← hl]
      have hlie : ¬ lens.isEmpty := by simpa [List.isEmpty_iff] using hlne
      simp only [add_chapter, fetch_chapters, fetch_pages, hie, hlie, if_false,
        Bool.false_eq_true]
      constructor
      · simp [hsum]
      · exact splitLengths_flatten_of_sum _ _ (by simp [hsum])
  · intro hall
    by_cases hi : idx = []
    · left
      have : lens = [] := hfresh hi
      subst hi
      simp [convert_pages, fetch_pages, this]
    · have hie : ¬ idx.isEmpty := by simpa [List.isEmpty_iff] using hi
      simp only [fetch_pages, hie, if_false, Bool.false_eq_true] at hall ⊢
      have hfilter : idx.filter ok = idx := List.filter_eq_self.2 (by simpa using hall)
      rcases hinv with h | h
      · left
        simpa [convert_pages, fetch_pages, hie] using h
      · right
        simp only [convert_pages, fetch_pages, hie, if_false, Bool.false_eq_true]
        simp only [hfilter]
        constructor
        · simp [h.1]
        · exact splitLengths_flatten_of_sum _ _ (by simp [h.1])

/-- Witness for C4 amended at a concrete one-chapter archive. -/
theorem add_chapter_convert_pages_preserve_invariant_witness :
    archiveInvT (add_chapter ["x"] (⟨["a"], [1]⟩ : ArchiveState String) ["b"]) ∧
    archiveInvT (convert_pages (fun _ => true) id ["x"]
      (⟨["a"], [1]⟩ : ArchiveState String)) := by
  have h := add_chapter_convert_pages_preserve_invariant
    (⟨["a"], [1]⟩ : ArchiveState String) ["x"] ["b"] (fun _ => true) id
    (by intro hcon; simp at hcon) (by right; exact ⟨by decide, by decide⟩)
  exact ⟨h.1, h.2 (by intro p hp; rfl)⟩

/-- C1 counterexample: baseline 1000 with candidates 900 (desc "zz"),
900 (desc "aa"), 800 (desc "mm").  The claimed ranking (baseline among
the candidates, ties by insertion order) would be
`800, 900-"zz", 900-"aa", 1000`; the code instead reports the baseline
first and breaks the 900-byte tie by description. -/
theorem compute_fmt_sizes_counterexample :
    (compute_fmt_sizes [1000] "orig" "src"
        [("wpll", "zz"), ("wply", "aa"), ("png", "mm")]
        (fun n => if n = "wpll" then [900] else if n = "wply" then [900]
          else if n = "png" then [800] else [])).map (fun e => (e.1, e.2.1)) =
      [(1000, "Source (orig)"), (800, "mm"), (900, "aa"), (900, "zz")] ∧
    ([(1000, "Source (orig)"), (800, "mm"), (900, "aa"), (900, "zz")] :
        List (ℕ × String)) ≠
      [(800, "mm"), (900, "zz"), (900, "aa"), (1000, "Source (orig)")] := by
  constructor <;> decide

/-- C1 amended: the report places the baseline entry first regardless of
its size, followed by the candidate totals sorted ascending by the tuple
(byte size, description, name) — ties in byte size are broken by the
description string, not by insertion order. -/
theorem compute_fmt_sizes_report_shape (srcSizes : List ℕ) (srcDesc srcName : String)
    (cands : List (String × String)) (candSizes : String → List ℕ) :
    (compute_fmt_sizes srcSizes srcDesc srcName cands candSizes).head? =
      some (srcSizes.sum, "Source (" ++ srcDesc ++ ")", srcName) ∧
    (compute_fmt_sizes srcSizes srcDesc srcName cands candSizes).tail.Perm
      (cands.map (fun c => ((candSizes c.1).sum, c.2, c.1))) ∧
    (compute_fmt_sizes srcSizes srcDesc srcName cands candSizes).tail.Pairwise
      (fun x y => entryLe x y = true) := by
  exact ⟨rfl, isortBy_perm entryLe _, isortBy_pairwise entryLe_total entryLe_trans _⟩

/-- C2: on a 100×100 source with a 50×50 viewport, no-downscale set and
no-upscale unset, the worker resizes the saved page to 50×50 — the
`elif not noup` branch (commented "upscaling") performs the downscale
that the no-downscale flag was meant to prevent, so the claimed
"no resize" does not hold on the code. -/
theorem convert_page_worker_nodownscale_failing_input :
    workerSize (convert_page_worker ⟨0⟩ ⟨true⟩
        ⟨none, 80, (50, 50), false, false, false, true⟩
        ⟨"cache/p.png", "p", .ok (.png, ⟨"RGB", 100, 100⟩)⟩ none) =
      some ((50 : ℤ), (50 : ℤ)) ∧
    ((50 : ℤ), (50 : ℤ)) ≠ ((100 : ℤ), (100 : ℤ)) := by
  constructor <;> decide

/-- C5 counterexample: the worker is not pure with respect to shared
state — one successful call rewrites the global `LossyFmt.quality` from
0 to the snapshot's 80. -/
theorem convert_page_worker_mutates_global :
    (convert_page_worker ⟨0⟩ ⟨true⟩
        ⟨none, 80, (0, 0), false, false, false, false⟩
        ⟨"cache/p.png", "p", .ok (.png, ⟨"RGB", 100, 100⟩)⟩ none).1 =
      (⟨80⟩ : Globals) ∧ (⟨80⟩ : Globals) ≠ (⟨0⟩ : Globals) := by
  constructor <;> decide

/-- C5 amended: the worker reads the options snapshot for every
conversion parameter but also reads the global config flag
`ignore_page_err`, and it mutates global state: every call whose page
opens successfully sets the global `LossyFmt.quality` to the snapshot's
quality (globals are untouched when the page fails to open). -/
theorem convert_page_worker_global_effect (g : Globals) (cfg : Config)
    (opts : ConvOptions) (src : PageIn) (savedir : Option String) :
    (convert_page_worker g cfg opts src savedir).1 =
      (match src.openResult with
       | .ok _ => { g with lossyQuality := opts.quality }
       | .error _ => g) ∧
    (∀ e, src.openResult = .error e →
      (convert_page_worker g ⟨true⟩ opts src savedir).2 = .ok (.failed src.fp) ∧
      (convert_page_worker g ⟨false⟩ opts src savedir).2 = .error e) := by
  constructor
  · rcases h : src.openResult with e | pr
    · by_cases hc : cfg.ignore_page_err <;> simp [convert_page_worker, h, hc]
    · rcases pr with ⟨sf, img⟩
      simp [convert_page_worker, h]
  · intro e he
    constructor <;> simp [convert_page_worker, he]

/-- Witness for C5 amended at a page whose file cannot be opened. -/
theorem convert_page_worker_global_effect_witness :
    (convert_page_worker ⟨5⟩ ⟨true⟩
        ⟨none, 42, (0, 0), false, false, false, false⟩
        ⟨"c/x.png", "x", .error .ioErr⟩ none).1 = (⟨5⟩ : Globals) ∧
    (convert_page_worker ⟨5⟩ ⟨true⟩
        ⟨none, 42, (0, 0), false, false, false, false⟩
        ⟨"c/x.png", "x", .error .ioErr⟩ none).2 = .ok (.failed "c/x.png") ∧
    (convert_page_worker ⟨5⟩ ⟨false⟩
        ⟨none, 42, (0, 0), false, false, false, false⟩
        ⟨"c/x.png", "x", .error .ioErr⟩ none).2 = .error .ioErr := by
  have h := convert_page_worker_global_effect ⟨5⟩ ⟨true⟩
    ⟨none, 42, (0, 0), false, false, false, false⟩
    ⟨"c/x.png", "x", .error .ioErr⟩ none
  exact ⟨h.1, (h.2 .ioErr rfl).1, (h.2 .ioErr rfl).2⟩

/-- Position of each page inside the flattened zip entry list: the entry
at offset (pages of earlier chapters) + `j` is page `j` of chapter `i`,
with the destination computed for chapter index `i0 + i`. -/
theorem zipEntriesFrom_getElem? (n lead : ℕ) (pfx : String) :
    ∀ (chapters : List (List ZPage)) (i0 i j : ℕ) (ch : List ZPage) (p : ZPage),
      chapters[i]? = some ch → ch[j]? = some p →
      (zipEntriesFrom n lead pfx i0 chapters)[(((chapters.take i).map List.length).sum + j)]? =
        some (zipDest n lead pfx (i0 + i) p, p) := by
  intro chapters
  induction chapters with
  | nil =>
    intro i0 i j ch p hch
    simp at hch
  | cons c0 rest ih =>
    intro i0 i j ch p hch hp
    cases i with
    | zero =>
      simp only [List.getElem?_cons_zero, Option.some.injEq] at hch
      have hj : j < ch.length := (List.getElem?_eq_some.1 hp).1
      subst hch
      simp only [List.take_zero, List.map_nil, List.sum_nil, Nat.zero_add,
        zipEntriesFrom]
      rw [List.getElem?_append_left (by simpa using hj)]
      rw [List.getElem?_map, hp]
      simp
    | succ i2 =>
      rw [List.getElem?_cons_succ] at hch
      simp only [List.take_succ_cons, List.map_cons, List.sum_cons, zipEntriesFrom]
      rw [Nat.add_assoc]
      rw [List.getElem?_append_right (by simp)]
      simp only [List.length_map, Nat.add_sub_cancel_left]
      have h2 := ih (i0 + 1) i2 j ch p hch hp
      have he : i0 + 1 + i2 = i0 + (i2 + 1) := by omega
      rw [he] at h2
      exact h2

/-- C9: with more than one chapter, page `j` of chapter `i` (0-based
here, so directory index `i+1`) is written under
`prefix ++ zero-padded (i+1)` with padding width the digit count of the
chapter count, in flattened chapter order; with exactly one chapter no
prefix directory is introduced; 3 chapters of sizes [2,1,3] produce
prefixes `v1/`, `v2/`, `v3/` preserving intra-chapter page order. -/
theorem write_zip_chapter_paths :
    (∀ (ch : List ZPage) (pfx : String),
      write_zip [ch] pfx = ch.map (fun p => (p.rel_path, p))) ∧
    (∀ (chapters : List (List ZPage)) (pfx : String) (i j : ℕ)
      (ch : List ZPage) (p : ZPage), 1 < chapters.length →
      chapters[i]? = some ch → ch[j]? = some p →
      (write_zip chapters pfx)[(((chapters.take i).map List.length).sum + j)]? =
        some (pfx ++ padNum (toString chapters.length).length (i + 1) ++ "/" ++
          p.rel_path, p)) ∧
    write_zip [[⟨"p00"⟩, ⟨"p01"⟩], [⟨"p10"⟩], [⟨"p20"⟩, ⟨"p21"⟩, ⟨"p22"⟩]] "v" =
      [("v1/p00", ⟨"p00"⟩), ("v1/p01", ⟨"p01"⟩), ("v2/p10", ⟨"p10"⟩),
        ("v3/p20", ⟨"p20"⟩), ("v3/p21", ⟨"p21"⟩), ("v3/p22", ⟨"p22"⟩)] := by
  refine ⟨?_, ?_, ?_⟩
  · intro ch pfx
    simp [write_zip, zipEntriesFrom, zipDest]
  · intro chapters pfx i j ch p hlen hch hp
    have h := zipEntriesFrom_getElem? chapters.length
      (toString chapters.length).length pfx chapters 0 i j ch p hch hp
    rw [Nat.zero_add] at h
    unfold write_zip
    rw [h]
    simp [zipDest, hlen]
  · decide

/-- Witness for C9's general position clause: in a two-chapter archive
the second page of chapter 2 lands at flattened offset 1 + 1 under the
`v2/` prefix. -/
theorem write_zip_chapter_paths_witness :
    (write_zip [[⟨"a1"⟩], [⟨"b1"⟩, ⟨"b2"⟩]] "v")[1 + 1]? =
      some ("v2/b2", ⟨"b2"⟩) := by
  have h := write_zip_chapter_paths.2.1 [[⟨"a1"⟩], [⟨"b1"⟩, ⟨"b2"⟩]] "v" 1 1
    [⟨"b1"⟩, ⟨"b2"⟩] ⟨"b2"⟩ (by decide) (by decide) (by decide)
  have he : ((([[⟨"a1"⟩], [⟨"b1"⟩, ⟨"b2"⟩]] : List (List ZPage)).take 1).map
      List.length).sum + 1 = 1 + 1 := by decide
  rw [he] at h
  rw [h]
  decide

/-! ### File-system lemmas for `write_archive` -/

theorem fsErase_of_lookup_none (p : String) (fs : FS) (h : fsLookup p fs = none) :
    fsErase p fs = fs := by
  unfold fsLookup at h
  unfold fsErase
  rcases hf : fs.find? (fun e => e.1 = p) with _ | e
  · refine List.filter_eq_self.2 ?_
    intro a ha
    have := List.find?_eq_none.1 hf a ha
    simpa using this
  · rw [hf] at h
    simp at h

theorem fsLookup_fsErase_self (p : String) (fs : FS) :
    fsLookup p (fsErase p fs) = none := by
  unfold fsLookup fsErase
  rw [List.find?_eq_none.2]
  · rfl
  · intro x hx
    have := (List.mem_filter.1 hx).2
    simpa using this

theorem fsErase_idem (p : String) (fs : FS) :
    fsErase p (fsErase p fs) = fsErase p fs :=
  fsErase_of_lookup_none p (fsErase p fs) (fsLookup_fsErase_self p fs)

/-- C10: for every call to `write_archive` with a valid book format (and
a passing parent-directory check), a pre-existing file at the computed
destination has no influence: the call behaves exactly as if that file
had already been deleted — it is overwritten, never preserved and never
reported as an error — and in the `mobi` branch the old file is already
gone even though nothing is written. -/
theorem write_archive_overwrites (parentOk : String → Bool) (zipContent : ℕ)
    (epubWrite : FS → FS × String) (fs : FS) (stem book_format file_name : String)
    (hv : book_format ∈ VALID_BOOK_FORMATS)
    (hp : file_name ≠ "" → parentOk file_name = true) :
    write_archive parentOk zipContent epubWrite fs stem book_format file_name =
      write_archive parentOk zipContent epubWrite
        (fsErase ((if file_name ≠ "" then file_name else stem) ++ "." ++ book_format)
          fs) stem book_format file_name ∧
    (book_format = "mobi" →
      fsLookup ((if file_name ≠ "" then file_name else stem) ++ "." ++ book_format)
        (write_archive parentOk zipContent epubWrite fs stem book_format
          file_name).1 = none) := by
  have hpar : ¬ (file_name ≠ "" ∧ ¬ parentOk file_name = true) := by
    rintro ⟨h1, h2⟩
    exact h2 (hp h1)
  constructor
  · rcases hlk : fsLookup ((if file_name ≠ "" then file_name else stem) ++ "." ++
        book_format) fs with _ | v
    · rw [fsErase_of_lookup_none _ fs hlk]
    · simp only [write_archive, if_neg (not_not_intro hv), if_neg hpar]
      rw [hlk, fsLookup_fsErase_self, fsErase_idem]
      simp
  · intro hm
    subst hm
    rcases hlk : fsLookup ((if file_name ≠ "" then file_name else stem) ++ "." ++
        "mobi") fs with _ | v
    · simp only [write_archive, if_neg (not_not_intro hv), if_neg hpar]
      rw [hlk]
      have hnc : ¬ (("mobi" : String) = "cbz" ∨ ("mobi" : String) = "zip") := by
        decide
      rw [if_neg hnc, if_neg (show ¬ (("mobi" : String) = "epub") by decide)]
      simpa using hlk
    · simp only [write_archive, if_neg (not_not_intro hv), if_neg hpar]
      rw [hlk]
      have hnc : ¬ (("mobi" : String) = "cbz" ∨ ("mobi" : String) = "zip") := by
        decide
      rw [if_neg hnc, if_neg (show ¬ (("mobi" : String) = "epub") by decide)]
      simpa using fsLookup_fsErase_self _ fs

/-- Witness for C10: a concrete `cbz` write over an existing `out.cbz`. -/
theorem write_archive_overwrites_witness :
    write_archive (fun _ => true) 7 (fun s => (s, "x.epub"))
        [("out.cbz", 3)] "out" "cbz" "" =
      write_archive (fun _ => true) 7 (fun s => (s, "x.epub"))
        (fsErase ((if ("" : String) ≠ "" then "" else "out") ++ "." ++ "cbz")
          [("out.cbz", 3)]) "out" "cbz" "" ∧
    (("cbz" : String) = "mobi" →
      fsLookup ((if ("" : String) ≠ "" then "" else "out") ++ "." ++ "cbz")
        (write_archive (fun _ => true) 7 (fun s => (s, "x.epub"))
          [("out.cbz", 3)] "out" "cbz" "").1 = none) :=
  write_archive_overwrites (fun _ => true) 7 (fun s => (s, "x.epub"))
    [("out.cbz", 3)] "out" "cbz" "" (by decide) (fun h => rfl)

/-- C8: for positive image and viewport dimensions the aspect-preserving
resize keeps one dimension at the viewport (the tighter one) and shrinks
the other via floor/ceil chosen to minimize the aspect error, the result
always fits inside the viewport, no dimension drops below 1 pixel, and
in particular 1000×500 in a 200×200 viewport yields 200×100. -/
theorem get_size_that_preserves_ratio_spec (w h vx vy : ℤ)
    (hw : 1 ≤ w) (hh : 1 ≤ h) (hx : 1 ≤ vx) (hy : 1 ≤ vy) :
    1 ≤ (get_size_that_preserves_ratio (w, h) (vx, vy)).1 ∧
    1 ≤ (get_size_that_preserves_ratio (w, h) (vx, vy)).2 ∧
    (get_size_that_preserves_ratio (w, h) (vx, vy)).1 ≤ vx ∧
    (get_size_that_preserves_ratio (w, h) (vx, vy)).2 ≤ vy ∧
    ((get_size_that_preserves_ratio (w, h) (vx, vy)).1 = vx ∨
      (get_size_that_preserves_ratio (w, h) (vx, vy)).2 = vy) ∧
    get_size_that_preserves_ratio (1000, 500) (200, 200) = (200, 100) := by
  have hex : get_size_that_preserves_ratio (1000, 500) (200, 200) = (200, 100) := by
    unfold get_size_that_preserves_ratio
    norm_num
    unfold round_aspect_y
    norm_num
  have hvyq : (0:ℚ) < (vy:ℚ) := by exact_mod_cast (by omega : (0:ℤ) < vy)
  have hwq : (0:ℚ) < (w:ℚ) := by exact_mod_cast (by omega : (0:ℤ) < w)
  have hhq : (0:ℚ) < (h:ℚ) := by exact_mod_cast (by omega : (0:ℤ) < h)
  have haspect : (0:ℚ) < (w:ℚ)/(h:ℚ) := div_pos hwq hhq
  by_cases hbr : (vx:ℚ)/(vy:ℚ) ≥ (w:ℚ)/(h:ℚ)
  · have hres : get_size_that_preserves_ratio (w, h) (vx, vy) =
        (round_aspect_x ((w:ℚ)/(h:ℚ)) (vy:ℚ) ((vy:ℚ) * ((w:ℚ)/(h:ℚ))), vy) := by
      unfold get_size_that_preserves_ratio
      rw [if_pos hbr]
    have hnum : (vy:ℚ) * ((w:ℚ)/(h:ℚ)) ≤ (vx:ℚ) := by
      rw [mul_comm]
      exact (le_div_iff₀ hvyq).1 hbr
    have hceil : ⌈(vy:ℚ) * ((w:ℚ)/(h:ℚ))⌉ ≤ vx := Int.ceil_le.2 hnum
    have hpick : round_aspect_x ((w:ℚ)/(h:ℚ)) (vy:ℚ) ((vy:ℚ) * ((w:ℚ)/(h:ℚ))) ≤ vx := by
      unfold round_aspect_x
      refine max_le ?_ hx
      by_cases hkey : |(w:ℚ)/(h:ℚ) - (⌊(vy:ℚ) * ((w:ℚ)/(h:ℚ))⌋ : ℚ) / (vy:ℚ)| ≤
          |(w:ℚ)/(h:ℚ) - (⌈(vy:ℚ) * ((w:ℚ)/(h:ℚ))⌉ : ℚ) / (vy:ℚ)|
      · simp only [hkey, if_true]
        exact le_trans (Int.floor_le_ceil _) hceil
      · simp only [hkey, if_false]
        exact hceil
    have h1 : 1 ≤ round_aspect_x ((w:ℚ)/(h:ℚ)) (vy:ℚ) ((vy:ℚ) * ((w:ℚ)/(h:ℚ))) := by
      unfold round_aspect_x
      exact le_max_right _ 1
    rw [hres]
    exact ⟨h1, hy, hpick, le_refl vy, Or.inr rfl, hex⟩
  · have hlt : (vx:ℚ)/(vy:ℚ) < (w:ℚ)/(h:ℚ) := lt_of_not_ge hbr
    have hres : get_size_that_preserves_ratio (w, h) (vx, vy) =
        (vx, round_aspect_y ((w:ℚ)/(h:ℚ)) (vx:ℚ) ((vx:ℚ) / ((w:ℚ)/(h:ℚ)))) := by
      unfold get_size_that_preserves_ratio
      rw [if_neg hbr]
    have hnum : (vx:ℚ) / ((w:ℚ)/(h:ℚ)) < (vy:ℚ) := by
      rw [div_lt_iff₀ haspect, mul_comm]
      exact (div_lt_iff₀ hvyq).1 hlt
    have hceil : ⌈(vx:ℚ) / ((w:ℚ)/(h:ℚ))⌉ ≤ vy := Int.ceil_le.2 (le_of_lt hnum)
    have hpick : round_aspect_y ((w:ℚ)/(h:ℚ)) (vx:ℚ) ((vx:ℚ) / ((w:ℚ)/(h:ℚ))) ≤ vy := by
      unfold round_aspect_y
      refine max_le ?_ hy
      by_cases hkey : (if ((⌊(vx:ℚ) / ((w:ℚ)/(h:ℚ))⌋ : ℤ) : ℚ) = 0 then (0:ℚ)
          else |(w:ℚ)/(h:ℚ) - (vx:ℚ) / ((⌊(vx:ℚ) / ((w:ℚ)/(h:ℚ))⌋ : ℤ) : ℚ)|) ≤
          (if ((⌈(vx:ℚ) / ((w:ℚ)/(h:ℚ))⌉ : ℤ) : ℚ) = 0 then (0:ℚ)
          else |(w:ℚ)/(h:ℚ) - (vx:ℚ) / ((⌈(vx:ℚ) / ((w:ℚ)/(h:ℚ))⌉ : ℤ) : ℚ)|)
      · simp only [hkey, if_true]
        exact le_trans (Int.floor_le_ceil _) hceil
      · simp only [hkey, if_false]
        exact hceil
    have h1 : 1 ≤ round_aspect_y ((w:ℚ)/(h:ℚ)) (vx:ℚ) ((vx:ℚ) / ((w:ℚ)/(h:ℚ))) := by
      unfold round_aspect_y
      exact le_max_right _ 1
    rw [hres]
    exact ⟨hx, h1, le_refl vx, hpick, Or.inl rfl, hex⟩

/-- Witness for C8 at the spec's example: 1000×500 into a 200×200
viewport. -/
theorem get_size_that_preserves_ratio_spec_witness :
    1 ≤ (get_size_that_preserves_ratio (1000, 500) (200, 200)).1 ∧
    1 ≤ (get_size_that_preserves_ratio (1000, 500) (200, 200)).2 ∧
    (get_size_that_preserves_ratio (1000, 500) (200, 200)).1 ≤ 200 ∧
    (get_size_that_preserves_ratio (1000, 500) (200, 200)).2 ≤ 200 ∧
    ((get_size_that_preserves_ratio (1000, 500) (200, 200)).1 = 200 ∨
      (get_size_that_preserves_ratio (1000, 500) (200, 200)).2 = 200) ∧
    get_size_that_preserves_ratio (1000, 500) (200, 200) = (200, 100) :=
  get_size_that_preserves_ratio_spec 1000 500 200 200 (by norm_num) (by norm_num)
    (by norm_num) (by norm_num)
